import Mathlib

/-!
Verification of the Siraaj source-code patcher.

The repository consists of three small scripts that patch a Go source file:

* `fix_parquet_funcs.py` — the Structural Inserter: walks the file line by
  line, and for each line containing a target marker
  `func (r *eventRepository) <name>` scans forward (starting at the line
  AFTER the matched one) for the first line containing an opening brace,
  and inserts `\tparquetSource := r.getParquetSource()\n` one line past it
  when the binding is not already present there.
* `fix_parquet_queries.py` — the general Call-Site Rewriter: the regex
  `(fmt\.Sprintf\(backtick [^backtick]* FROM %s [^backtick]* backtick), whereClause\)`
  applied by `re.sub`, replacing with `\1, parquetSource, whereClause)`.
* `fix_sprintf.py` — the exception Call-Site Rewriter for one irregular
  multi-line call with two trailing identifiers.

Text is modelled as `List Char`; a line of the Structural Inserter's buffer
is a `List Char` as well.  All definitions below are executable and follow
the Python sources.
-/

/-- The backtick character (Go raw-string delimiter). -/
def btick : Char := '\x60'

/-- The opening-brace character (Go block opener). -/
def bopen : Char := '\x7b'

/-- `hasPre s pat` holds when `pat` is a prefix of `s` (character lists). -/
def hasPre : List Char → List Char → Bool
  | _, [] => true
  | [], _ :: _ => false
  | a :: s, b :: p => a == b && hasPre s p

/-- Python's substring containment `pat in s` on character lists. -/
def containsSub : List Char → List Char → Bool
  | [], pat => pat.isEmpty
  | a :: t, pat => hasPre (a :: t) pat || containsSub t pat

/-- Strip the literal `pat` from the front of `s`; `none` when `s` does not
start with `pat`. -/
def dropPre : List Char → List Char → Option (List Char)
  | [], s => some s
  | _ :: _, [] => none
  | a :: p, b :: s => if a == b then dropPre p s else none

/-! ## The general Call-Site Rewriter (`fix_parquet_queries.py`) -/

/-- The fixed opening of the pattern: `fmt.Sprintf(` followed by a backtick. -/
def sprintfOpen : List Char := "fmt.Sprintf(\x60".toList

/-- The guard substring required inside the template literal. -/
def guardStr : List Char := "FROM %s".toList

/-- The exact trailing-argument text the general pattern requires after the
closing backtick. -/
def tailGen : List Char := ", whereClause)".toList

/-- What the general pattern emits after the re-emitted literal body: the
closing backtick and the rewritten argument list. -/
def replTail : List Char := "\x60, parquetSource, whereClause)".toList

/-- Character predicate for the regex class `[^backtick]`. -/
def nonBT (c : Char) : Bool := !(c == btick)

/-- One match attempt of the general pattern at the head of `s`.  Returns the
literal body `L` (for re-emission, regex group 1 minus its fixed frame) and
the text after the whole match.  Mirrors
`(fmt\.Sprintf\(backtick [^backtick]*FROM %s[^backtick]* backtick), whereClause\)`:
since the character class excludes backticks, the closing backtick is the
first backtick after the opening one. -/
def tryMatchGen (s : List Char) : Option (List Char × List Char) :=
  match dropPre sprintfOpen s with
  | none => none
  | some r1 =>
    match r1.dropWhile nonBT with
    | [] => none
    | _ :: r3 =>
      if containsSub (r1.takeWhile nonBT) guardStr then
        match dropPre tailGen r3 with
        | none => none
        | some r4 => some (r1.takeWhile nonBT, r4)
      else none

/-- Fuel-driven scan of `re.sub`: at each position try the pattern; on a match
emit the replacement and resume after the match, otherwise emit one character
and advance. -/
def rewriteGo : Nat → List Char → List Char
  | 0, s => s
  | _ + 1, [] => []
  | n + 1, c :: t =>
    match tryMatchGen (c :: t) with
    | some (L, rest) => sprintfOpen ++ L ++ replTail ++ rewriteGo n rest
    | none => c :: rewriteGo n t

/-- `re.sub(pattern, replacement, content)` of `fix_parquet_queries.py`. -/
def rewriteGeneral (s : List Char) : List Char := rewriteGo s.length s

/-- Executable "the general pattern matches nowhere in `s`". -/
def noMatchGen : List Char → Bool
  | [] => true
  | c :: t => (tryMatchGen (c :: t)).isNone && noMatchGen t

/-! ## The exception Call-Site Rewriter (`fix_sprintf.py`)

The regex is a long literal interleaved with `\s+` runs.  Every `\s+` is
followed by a non-whitespace character, so greedy matching is equivalent to
taking the maximal nonempty whitespace run at that point. -/

/-- Python's `\s` whitespace class (ASCII part, which is all the pattern can
meet in the source being patched). -/
def isWs (c : Char) : Bool :=
  c == ' ' || c == '\t' || c == '\n' || c == '\r' || c == '\x0b' || c == '\x0c'

/-- Consume the maximal nonempty whitespace run at the front of `s`
(the `\s+` of the regex); returns the run and the remainder. -/
def wsChunk (s : List Char) : Option (List Char × List Char) :=
  if (s.takeWhile isWs).isEmpty then none
  else some (s.takeWhile isWs, s.dropWhile isWs)

/-- First literal chunk of the exception regex, up to its first `\n`. -/
def lit1 : List Char :=
  "strftime(DATE_TRUNC(\x27month\x27, timestamp), \x27%%Y-%%m-01\x27) as date, \n".toList

/-- Literal chunk `%s\n` of the exception regex. -/
def lit2 : List Char := "%s\n".toList

/-- Literal chunk `FROM %s \n` of the exception regex. -/
def lit3 : List Char := "FROM %s \n".toList

/-- Literal chunk `WHERE %s\n` of the exception regex. -/
def lit4 : List Char := "WHERE %s\n".toList

/-- Literal chunk `GROUP BY date \n` of the exception regex. -/
def lit5 : List Char := "GROUP BY date \n".toList

/-- Literal chunk `ORDER BY date\n` of the exception regex. -/
def lit6 : List Char := "ORDER BY date\n".toList

/-- Trailing-argument text of the exception pattern, after the closing
backtick of group 1. -/
def tailExc : List Char := ", selectClause, whereClause)".toList

/-- What replaces `tailExc` (`\1, \2, parquetSource, \3)` with the literal
groups `\2 = selectClause`, `\3 = whereClause`). -/
def replExc : List Char := ", selectClause, parquetSource, whereClause)".toList

/-- One `\s+ <literal>` step of the exception regex: consume a nonempty
whitespace run, then the literal `litp`; return the run and the remainder. -/
def excStep (litp s : List Char) : Option (List Char × List Char) :=
  match wsChunk s with
  | none => none
  | some (w, r) =>
    match dropPre litp r with
    | none => none
    | some r' => some (w, r')

/-- One match attempt of the exception pattern at the head of `s`.  Returns
group 1 (everything from `strftime` through the closing backtick, with the
actual whitespace runs) and the text after the whole match. -/
def tryMatchExc (s : List Char) : Option (List Char × List Char) :=
  match dropPre lit1 s with
  | none => none
  | some r1 =>
  match excStep lit2 r1 with
  | none => none
  | some (w1, r2) =>
  match excStep lit3 r2 with
  | none => none
  | some (w2, r3) =>
  match excStep lit4 r3 with
  | none => none
  | some (w3, r4) =>
  match excStep lit5 r4 with
  | none => none
  | some (w4, r5) =>
  match excStep lit6 r5 with
  | none => none
  | some (w5, r6) =>
  match excStep (btick :: tailExc) r6 with
  | none => none
  | some (w6, rest) =>
    some (lit1 ++ w1 ++ lit2 ++ w2 ++ lit3 ++ w3 ++ lit4 ++ w4 ++
      lit5 ++ w5 ++ lit6 ++ w6 ++ [btick], rest)

/-- Fuel-driven `re.sub` scan for the exception pattern. -/
def rewriteExcGo : Nat → List Char → List Char
  | 0, s => s
  | _ + 1, [] => []
  | n + 1, c :: t =>
    match tryMatchExc (c :: t) with
    | some (g1, rest) => g1 ++ replExc ++ rewriteExcGo n rest
    | none => c :: rewriteExcGo n t

/-- The `re.sub` call of `fix_sprintf.py`. -/
def rewriteSprintf (s : List Char) : List Char := rewriteExcGo s.length s

/-- Executable "the exception pattern matches nowhere in `s`". -/
def noMatchExc : List Char → Bool
  | [] => true
  | c :: t => (tryMatchExc (c :: t)).isNone && noMatchExc t

/-- The matched fragment of the template literal (regex group 1 without its
closing backtick): the fixed chunks interleaved with the actual whitespace
runs `w1 … w6` that the `\s+` occurrences consumed. -/
def fragExc (w1 w2 w3 w4 w5 w6 : List Char) : List Char :=
  lit1 ++ w1 ++ lit2 ++ w2 ++ lit3 ++ w3 ++ lit4 ++ w4 ++ lit5 ++ w5 ++ lit6 ++ w6

/-- The whole irregular call site matched by the exception pattern: the
matched literal fragment, the closing backtick, and the two trailing
identifiers `selectClause, whereClause`. -/
def excCallText (w1 w2 w3 w4 w5 w6 rest : List Char) : List Char :=
  fragExc w1 w2 w3 w4 w5 w6 ++ (btick :: (tailExc ++ rest))

/-! ## The Structural Inserter (`fix_parquet_funcs.py`) -/

/-- The configured target names (`functions_needing_fix`). -/
def targetNames : List (List Char) :=
  ["GetEntryExitPages".toList, "GetTopCountries".toList, "GetTopSources".toList,
   "GetTopEvents".toList, "GetBrowsersDevicesOS".toList, "GetChannels".toList,
   "GetProjects".toList]

/-- The fixed part of the definition marker, in front of the target name. -/
def markerHead : List Char := "func (r *eventRepository) ".toList

/-- `f'func (r *eventRepository) {func_name}' in line` for some target. -/
def isTargetLine (l : List Char) : Bool :=
  targetNames.any fun n => containsSub l (markerHead ++ n)

/-- The substring whose presence on the candidate line suppresses insertion. -/
def bindingStr : List Char := "parquetSource :=".toList

/-- The line the Structural Inserter inserts (indent, binding, newline). -/
def newLine : List Char := "\tparquetSource := r.getParquetSource()\n".toList

/-- The inner scan run for one matched line, over the lines AFTER it:
find the first line containing `\x7b`; step one line past it; if that line
exists and lacks the binding, insert `newLine` there.  Mirrors the
`j = i + 1; while ... ; j += 1; if j < len(lines) and ...` block. -/
def stepInsert : List (List Char) → List (List Char)
  | [] => []
  | l :: rest =>
    if containsSub l [bopen] then
      match rest with
      | [] => [l]
      | x :: t => if containsSub x bindingStr then l :: x :: t
                  else l :: newLine :: x :: t
    else l :: stepInsert rest

/-- Number of lines matching some target marker. -/
def countT (ls : List (List Char)) : Nat := ls.countP fun l => isTargetLine l

/-- Fuel bound for the line scan: each step consumes the head line and each
insertion (one per target line at most) lengthens the list by one. -/
def measureF (ls : List (List Char)) : Nat := ls.length + countT ls

/-- Fuel-driven main loop of `fix_parquet_funcs.py`: at each line, if it
matches a target marker, run the inner scan on the following lines; always
advance to the next line. -/
def fixFuncsGo : Nat → List (List Char) → List (List Char)
  | 0, ls => ls
  | _ + 1, [] => []
  | n + 1, l :: rest =>
    if isTargetLine l then l :: fixFuncsGo n (stepInsert rest)
    else l :: fixFuncsGo n rest

/-- The whole Structural Inserter run. -/
def fixFuncs (ls : List (List Char)) : List (List Char) :=
  fixFuncsGo (measureF ls) ls

/-- Counterexample buffer for the brace-scan claim: the opening brace sits on
the matched signature line itself, and no later line contains a brace. -/
def cex2buf : List (List Char) :=
  [("func (r *eventRepository) GetTopCountries() \x7b\n".toList),
   ("\tquery := 1\n".toList),
   ("\x7d\n".toList)]

/-- A buffer whose only function is not a target, but whose body mentions
target names inside a comment and a string literal. -/
def c6buf : List (List Char) :=
  [("func (r *eventRepository) getOther() \x7b\n".toList),
   ("\t// GetTopEvents is computed elsewhere\n".toList),
   ("\tq := \"GetTopCountries\"\n".toList),
   ("\x7d\n".toList)]

/-- A buffer with a matched target signature that is never followed by a
line containing an opening brace. -/
def c9buf : List (List Char) :=
  [("func (r *eventRepository) GetProjects\n".toList),
   ("\treturn nil\n".toList)]

/-- `ls` is settled when no target line in it would trigger an insertion on
the lines after it; on such a buffer the inserter is the identity. -/
def Settled (ls : List (List Char)) : Prop :=
  ∀ i l rest, ls.drop i = l :: rest → isTargetLine l = true → stepInsert rest = rest

/-- `NLExt r r'` holds when `r'` arises from `r` by inserting finitely many
copies of `newLine` at arbitrary positions. -/
inductive NLExt : List (List Char) → List (List Char) → Prop
  | refl (r : List (List Char)) : NLExt r r
  | ins (r u v : List (List Char)) : NLExt r (u ++ v) → NLExt r (u ++ newLine :: v)

/-! ## Concrete sample texts used by witnesses and counterexamples -/

/-- A guarded call whose rewrite enables a fresh overlapping match on the
second pass: the literal ends with `fmt.Sprintf(` and the text after the
closing backtick begins a second guarded span. -/
def cex4text : List Char :=
  "fmt.Sprintf(\x60FROM %s fmt.Sprintf(\x60, whereClause) FROM %s\x60, whereClause)".toList

/-- A guarded call whose two trailing arguments are separated by two spaces
instead of the exact `, ` the pattern requires. -/
def cex7text : List Char :=
  "fmt.Sprintf(\x60SELECT x FROM %s\x60,  whereClause)".toList

/-- Scenario D: a complete call whose literal lacks the guard substring. -/
def sampleNoGuard : List Char :=
  "fmt.Sprintf(\x60SELECT a FROM t\x60, whereClause)".toList

/-! ## Basic lemmas about the character-list primitives -/

theorem dropPre_append (p s : List Char) : dropPre p (p ++ s) = some s := by
  induction p with
  | nil => rfl
  | cons a p ih => simp [dropPre, ih]

theorem dropPre_some_len {p s r : List Char} (h : dropPre p s = some r) :
    s.length = p.length + r.length := by
  induction p generalizing s with
  | nil =>
    cases h' : dropPre ([] : List Char) s
    · rw [h'] at h; cases h
    · rw [h'] at h
      cases s with
      | nil =>
        cases h' with
        | refl => cases h; simp
      | cons b t =>
        cases h' with
        | refl => cases h; simp
  | cons a p ih =>
    cases s with
    | nil => cases h
    | cons b t =>
      by_cases hab : (a == b) = true
      · simp only [dropPre, hab, if_true] at h
        have := ih h
        simp [this]; omega
      · simp only [dropPre, hab, if_false] at h
        simp at hab
        simp [dropPre, hab] at h

theorem dropWhile_len_le (p : Char → Bool) (l : List Char) :
    (l.dropWhile p).length ≤ l.length := by
  induction l with
  | nil => simp
  | cons a t ih =>
    rw [List.dropWhile_cons]
    by_cases h : p a = true
    · simp [h]; omega
    · simp [h]

theorem takeWhile_append_of (p : Char → Bool) (w r : List Char)
    (hw : ∀ c ∈ w, p c = true) (hr : ∀ c, r.head? = some c → p c = false) :
    (w ++ r).takeWhile p = w := by
  induction w with
  | nil =>
    cases r with
    | nil => rfl
    | cons a t => simp [List.takeWhile_cons, hr a rfl]
  | cons a w ih =>
    simp only [List.cons_append, List.takeWhile_cons, hw a (by simp)]
    simp [ih fun c hc => hw c (by simp [hc])]

theorem dropWhile_append_of (p : Char → Bool) (w r : List Char)
    (hw : ∀ c ∈ w, p c = true) (hr : ∀ c, r.head? = some c → p c = false) :
    (w ++ r).dropWhile p = r := by
  induction w with
  | nil =>
    cases r with
    | nil => rfl
    | cons a t => simp [List.dropWhile_cons, hr a rfl]
  | cons a w ih =>
    simp only [List.cons_append, List.dropWhile_cons, hw a (by simp)]
    simp [ih fun c hc => hw c (by simp [hc])]

theorem nonBT_of_ne {c : Char} (h : c ≠ btick) : nonBT c = true := by
  simp [nonBT]; exact h

/-! ## Lemmas about the general Call-Site Rewriter -/

theorem tryMatchGen_nil : tryMatchGen [] = none := rfl

theorem tryMatchGen_some_len {s L r : List Char}
    (h : tryMatchGen s = some (L, r)) : r.length < s.length := by
  unfold tryMatchGen at h
  split at h
  · cases h
  next r1 h1 =>
    have hl1 : s.length = sprintfOpen.length + r1.length := dropPre_some_len h1
    split at h
    · cases h
    next b r3 h2 =>
      have hl2 : r3.length + 1 ≤ r1.length := by
        have := dropWhile_len_le nonBT r1
        rw [h2] at this; simpa using this
      split at h
      · split at h
        · cases h
        next r4 h3 =>
          cases h
          have hl3 := dropPre_some_len h3
          have hsp : 0 < sprintfOpen.length := by decide
          omega
      · cases h

theorem rewriteGo_fuel : ∀ n m (s : List Char),
    s.length ≤ n → s.length ≤ m → rewriteGo n s = rewriteGo m s := by
  intro n
  induction n with
  | zero =>
    intro m s hn _
    have : s = [] := List.length_eq_zero.mp (Nat.le_zero.mp hn)
    subst this
    cases m <;> rfl
  | succ n ih =>
    intro m s hn hm
    cases m with
    | zero =>
      have : s = [] := List.length_eq_zero.mp (Nat.le_zero.mp hm)
      subst this; cases n <;> rfl
    | succ m =>
      cases s with
      | nil => rfl
      | cons c t =>
        simp only [rewriteGo]
        cases h : tryMatchGen (c :: t) with
        | none =>
          have ht : t.length ≤ n := by simp at hn; omega
          have ht' : t.length ≤ m := by simp at hm; omega
          simp [ih m t ht ht']
        | some p =>
          obtain ⟨L, rest⟩ := p
          have hr := tryMatchGen_some_len h
          have h1 : rest.length ≤ n := by simp at hn hr; omega
          have h2 : rest.length ≤ m := by simp at hm hr; omega
          simp [ih m rest h1 h2]

theorem rewriteGeneral_match {s L rest : List Char}
    (h : tryMatchGen s = some (L, rest)) :
    rewriteGeneral s = sprintfOpen ++ L ++ replTail ++ rewriteGeneral rest := by
  cases s with
  | nil => rw [tryMatchGen_nil] at h; cases h
  | cons c t =>
    have hr := tryMatchGen_some_len h
    show rewriteGo (c :: t).length (c :: t) = _
    simp only [List.length_cons, rewriteGo, h]
    have heq : rewriteGo t.length rest = rewriteGo rest.length rest := by
      apply rewriteGo_fuel
      · simp at hr; omega
      · exact Nat.le_refl _
    simp only [heq]
    rfl

theorem rewriteGeneral_cons_none {c : Char} {t : List Char}
    (h : tryMatchGen (c :: t) = none) :
    rewriteGeneral (c :: t) = c :: rewriteGeneral t := by
  show rewriteGo (c :: t).length (c :: t) = _
  simp only [List.length_cons, rewriteGo, h]
  rfl

theorem noMatchGen_go_id : ∀ (n : Nat) (s : List Char),
    noMatchGen s = true → rewriteGo n s = s := by
  intro n
  induction n with
  | zero => intro s _; rfl
  | succ n ih =>
    intro s hs
    cases s with
    | nil => rfl
    | cons c t =>
      simp only [noMatchGen, Bool.and_eq_true, Option.isNone_iff_eq_none] at hs
      simp only [rewriteGo, hs.1]
      simp [ih t hs.2]

theorem noMatchGen_id {s : List Char} (h : noMatchGen s = true) :
    rewriteGeneral s = s := noMatchGen_go_id _ s h

theorem nonBT_all {L : List Char} (hbt : btick ∉ L) : ∀ c ∈ L, nonBT c = true :=
  fun c hc => nonBT_of_ne (fun h => hbt (h ▸ hc))

theorem nonBT_head (X : List Char) :
    ∀ c, (btick :: X).head? = some c → nonBT c = false := by
  intro c hc
  simp only [List.head?_cons, Option.some.injEq] at hc
  subst hc
  decide

theorem gen_call_match (L rest : List Char) (hbt : btick ∉ L)
    (hg : containsSub L guardStr = true) :
    tryMatchGen (sprintfOpen ++ (L ++ (btick :: (tailGen ++ rest)))) = some (L, rest) := by
  have h1 := dropPre_append sprintfOpen (L ++ (btick :: (tailGen ++ rest)))
  have ht := takeWhile_append_of nonBT L (btick :: (tailGen ++ rest)) (nonBT_all hbt)
    (nonBT_head _)
  have hd := dropWhile_append_of nonBT L (btick :: (tailGen ++ rest)) (nonBT_all hbt)
    (nonBT_head _)
  simp only [tryMatchGen, h1, hd, ht, hg, if_true, dropPre_append]

theorem gen_call_noguard (L rest : List Char) (hbt : btick ∉ L)
    (hg : containsSub L guardStr = false) :
    tryMatchGen (sprintfOpen ++ (L ++ (btick :: (tailGen ++ rest)))) = none := by
  have h1 := dropPre_append sprintfOpen (L ++ (btick :: (tailGen ++ rest)))
  have ht := takeWhile_append_of nonBT L (btick :: (tailGen ++ rest)) (nonBT_all hbt)
    (nonBT_head _)
  have hd := dropWhile_append_of nonBT L (btick :: (tailGen ++ rest)) (nonBT_all hbt)
    (nonBT_head _)
  simp only [tryMatchGen, h1, hd, ht, hg, Bool.false_eq_true, if_false]

theorem gen_tail_nomatch (L rest tl : List Char) (hbt : btick ∉ L)
    (htl : ∀ q : List Char, dropPre tailGen (tl ++ q) = none) :
    tryMatchGen (sprintfOpen ++ (L ++ (btick :: (tl ++ rest)))) = none := by
  have h1 := dropPre_append sprintfOpen (L ++ (btick :: (tl ++ rest)))
  have ht := takeWhile_append_of nonBT L (btick :: (tl ++ rest)) (nonBT_all hbt)
    (nonBT_head _)
  have hd := dropWhile_append_of nonBT L (btick :: (tl ++ rest)) (nonBT_all hbt)
    (nonBT_head _)
  cases hg : containsSub L guardStr with
  | true => simp only [tryMatchGen, h1, hd, ht, hg, if_true, htl rest]
  | false => simp only [tryMatchGen, h1, hd, ht, hg, Bool.false_eq_true, if_false]

theorem gen_call_rewrite (L rest : List Char) (hbt : btick ∉ L)
    (hg : containsSub L guardStr = true) :
    rewriteGeneral (sprintfOpen ++ (L ++ (btick :: (tailGen ++ rest)))) =
      sprintfOpen ++ (L ++ (replTail ++ rewriteGeneral rest)) := by
  rw [rewriteGeneral_match (gen_call_match L rest hbt hg)]
  simp [List.append_assoc]

theorem gen_rewritten_nomatch (L rest : List Char) (hbt : btick ∉ L) :
    tryMatchGen (sprintfOpen ++ (L ++ (replTail ++ rest))) = none := by
  have h : replTail ++ rest =
      btick :: ((", parquetSource, whereClause)".toList) ++ rest) := rfl
  rw [h]
  exact gen_tail_nomatch L rest _ hbt (fun q => rfl)

/-! ## Claims about the general Call-Site Rewriter -/

/-- C1: the general pattern, at a call `fmt.Sprintf(` backtick `L` backtick
`, whereClause)` whose backtick-free literal body `L` contains the guard
substring `FROM %s`, matches exactly that call, re-emits `L` byte-for-byte,
inserts the single new identifier `parquetSource` immediately before the
trailing argument `whereClause`, and continues the non-overlapping scan on
the remaining text. -/
theorem c1_general_pattern_rewrites_guarded_call (L rest : List Char)
    (hbt : btick ∉ L) (hg : containsSub L guardStr = true) :
    tryMatchGen (sprintfOpen ++ (L ++ (btick :: (tailGen ++ rest)))) = some (L, rest) ∧
    rewriteGeneral (sprintfOpen ++ (L ++ (btick :: (tailGen ++ rest)))) =
      sprintfOpen ++ (L ++ (replTail ++ rewriteGeneral rest)) :=
  ⟨gen_call_match L rest hbt hg, gen_call_rewrite L rest hbt hg⟩

/-- Witness for C1 at the concrete literal body `SELECT * FROM %s WHERE x`. -/
theorem c1_witness :
    btick ∉ ("SELECT * FROM %s WHERE x".toList) ∧
    containsSub ("SELECT * FROM %s WHERE x".toList) guardStr = true ∧
    rewriteGeneral (sprintfOpen ++ (("SELECT * FROM %s WHERE x".toList) ++
        (btick :: (tailGen ++ [])))) =
      sprintfOpen ++ (("SELECT * FROM %s WHERE x".toList) ++
        (replTail ++ rewriteGeneral [])) :=
  ⟨by decide, by decide,
    (c1_general_pattern_rewrites_guarded_call _ [] (by decide) (by decide)).2⟩

/-- C4 as stated is false: one rewrite can create a fresh match that
overlaps the rewritten region, so the second application is not the
identity on the first application's output.  On `cex4text` the first pass
consumes through the inner `fmt.Sprintf(` backtick `, whereClause)` span,
and the text it re-emits juxtaposed with the remaining input forms a new
match for the second pass. -/
theorem c4_counterexample :
    rewriteGeneral (rewriteGeneral cex4text) ≠ rewriteGeneral cex4text := by decide

/-- C4 (amended): a call already rewritten to end in
`, parquetSource, whereClause)` no longer matches the general pattern at its
own position, because the pattern requires the closing backtick to be
followed immediately by `, whereClause)`.  (Global idempotence on arbitrary
text fails, per the counterexample.) -/
theorem c4_rewritten_call_not_rematched (L rest : List Char) (hbt : btick ∉ L) :
    tryMatchGen (sprintfOpen ++ (L ++ (replTail ++ rest))) = none :=
  gen_rewritten_nomatch L rest hbt

/-- Witness for the amended C4 at the literal body `X FROM %s`. -/
theorem c4_witness :
    btick ∉ ("X FROM %s".toList) ∧
    tryMatchGen (sprintfOpen ++ (("X FROM %s".toList) ++ (replTail ++ []))) = none :=
  ⟨by decide, c4_rewritten_call_not_rematched _ [] (by decide)⟩

/-- C5: guard precision and frame.  First, if the general pattern matches
nowhere in a text then the rewriter returns it byte-for-byte; second, a call
whose backtick-free literal body lacks the guard substring `FROM %s` is not
matched at its own position. -/
theorem c5_guard_precision_frame (text L rest : List Char) :
    (noMatchGen text = true → rewriteGeneral text = text) ∧
    (btick ∉ L → containsSub L guardStr = false →
      tryMatchGen (sprintfOpen ++ (L ++ (btick :: (tailGen ++ rest)))) = none) :=
  ⟨fun h => noMatchGen_id h, fun hbt hg => gen_call_noguard L rest hbt hg⟩

/-- Witness for C5: the Scenario D call `fmt.Sprintf(` backtick
`SELECT a FROM t` backtick `, whereClause)` matches nowhere and is passed
through unchanged, and its guardless literal body does not match at the
call's own position. -/
theorem c5_witness :
    (noMatchGen sampleNoGuard = true ∧ rewriteGeneral sampleNoGuard = sampleNoGuard) ∧
    (btick ∉ ("SELECT a FROM t".toList) ∧
      containsSub ("SELECT a FROM t".toList) guardStr = false ∧
      tryMatchGen (sprintfOpen ++ (("SELECT a FROM t".toList) ++
        (btick :: (tailGen ++ [])))) = none) :=
  ⟨⟨by decide, (c5_guard_precision_frame sampleNoGuard [] []).1 (by decide)⟩,
   ⟨by decide, by decide,
     (c5_guard_precision_frame sampleNoGuard ("SELECT a FROM t".toList) []).2
       (by decide) (by decide)⟩⟩

/-- C7 as stated is false: matching is whitespace-EXACT at the argument
boundary.  A guarded call whose trailing arguments are separated by two
spaces instead of the exact `, ` is not matched anywhere and is left
unchanged, contradicting the claim that it is still matched and rewritten. -/
theorem c7_counterexample :
    rewriteGeneral cex7text = cex7text ∧ noMatchGen cex7text = true := by decide

/-- C7 (amended): the general pattern tolerates literal-internal newlines
(a guarded call whose literal body spans lines is matched and rewritten,
with the body passed through verbatim), but it is whitespace-exact at the
argument boundary: with two spaces after the comma the call does not match
at its own position. -/
theorem c7_newline_tolerant_whitespace_exact (L1 L2 rest : List Char)
    (hbt : btick ∉ L1 ++ '\n' :: L2)
    (hg : containsSub (L1 ++ '\n' :: L2) guardStr = true) :
    rewriteGeneral (sprintfOpen ++ ((L1 ++ '\n' :: L2) ++ (btick :: (tailGen ++ rest)))) =
      sprintfOpen ++ ((L1 ++ '\n' :: L2) ++ (replTail ++ rewriteGeneral rest)) ∧
    tryMatchGen (sprintfOpen ++ ((L1 ++ '\n' :: L2) ++
      (btick :: ((",  whereClause)".toList) ++ rest)))) = none :=
  ⟨gen_call_rewrite _ rest hbt hg,
   gen_tail_nomatch _ rest _ hbt (fun _ => rfl)⟩

/-- Witness for the amended C7 with literal body `SELECT x` newline ` FROM %s`. -/
theorem c7_witness :
    btick ∉ (("SELECT x".toList) ++ '\n' :: (" FROM %s".toList)) ∧
    containsSub (("SELECT x".toList) ++ '\n' :: (" FROM %s".toList)) guardStr = true ∧
    rewriteGeneral (sprintfOpen ++ ((("SELECT x".toList) ++ '\n' :: (" FROM %s".toList)) ++
        (btick :: (tailGen ++ [])))) =
      sprintfOpen ++ ((("SELECT x".toList) ++ '\n' :: (" FROM %s".toList)) ++
        (replTail ++ rewriteGeneral [])) :=
  ⟨by decide, by decide,
    (c7_newline_tolerant_whitespace_exact ("SELECT x".toList) (" FROM %s".toList) []
      (by decide) (by decide)).1⟩

/-! ## Lemmas about the exception Call-Site Rewriter -/

theorem head_nonws_of (c0 : Char) (r : List Char) (h : r.head? = some c0)
    (hc : isWs c0 = false) : ∀ c, r.head? = some c → isWs c = false := by
  intro c hcc
  rw [h] at hcc
  cases hcc
  exact hc

theorem wsChunk_append (w r : List Char) (hw : w ≠ [])
    (hall : ∀ c ∈ w, isWs c = true)
    (hhead : ∀ c, r.head? = some c → isWs c = false) :
    wsChunk (w ++ r) = some (w, r) := by
  have ht := takeWhile_append_of isWs w r hall hhead
  have hd := dropWhile_append_of isWs w r hall hhead
  unfold wsChunk
  rw [ht, hd]
  cases w with
  | nil => exact absurd rfl hw
  | cons a t => simp [List.isEmpty]

theorem excStep_append (litp w r : List Char) (hw : w ≠ [])
    (hall : ∀ c ∈ w, isWs c = true)
    (hhead : ∀ c, (litp ++ r).head? = some c → isWs c = false) :
    excStep litp (w ++ (litp ++ r)) = some (w, r) := by
  simp only [excStep, wsChunk_append w (litp ++ r) hw hall hhead, dropPre_append]

theorem excStep_append_none (litp w r : List Char) (hw : w ≠ [])
    (hall : ∀ c ∈ w, isWs c = true)
    (hhead : ∀ c, r.head? = some c → isWs c = false)
    (hfail : dropPre litp r = none) :
    excStep litp (w ++ r) = none := by
  simp only [excStep, wsChunk_append w r hw hall hhead, hfail]

theorem takeWhile_dropWhile_len (p : Char → Bool) (l : List Char) :
    (l.takeWhile p).length + (l.dropWhile p).length = l.length := by
  induction l with
  | nil => rfl
  | cons a t ih =>
    rw [List.takeWhile_cons, List.dropWhile_cons]
    by_cases h : p a = true
    · simp only [h, if_true]
      simp only [List.length_cons]
      omega
    · simp only [h]
      simp

theorem wsChunk_some_len {s w r : List Char} (h : wsChunk s = some (w, r)) :
    w ≠ [] ∧ w.length + r.length = s.length := by
  unfold wsChunk at h
  split at h
  · cases h
  next hne =>
    cases h
    refine ⟨?_, ?_⟩
    · intro hcon
      rw [hcon] at hne
      exact hne rfl
    · exact takeWhile_dropWhile_len isWs s

theorem excStep_some_len {litp s w r : List Char}
    (h : excStep litp s = some (w, r)) : r.length < s.length := by
  unfold excStep at h
  split at h
  · cases h
  next w0 r0 hws =>
    split at h
    · cases h
    next r' hdp =>
      cases h
      have h1 := wsChunk_some_len hws
      have h2 := dropPre_some_len hdp
      have h3 : 0 < w.length := List.length_pos.mpr h1.1
      omega

theorem tryMatchExc_nil : tryMatchExc [] = none := rfl

theorem tryMatchExc_some_len {s g r : List Char}
    (h : tryMatchExc s = some (g, r)) : r.length < s.length := by
  unfold tryMatchExc at h
  split at h
  · cases h
  next r1 h1 =>
    have l1 := dropPre_some_len h1
    split at h
    · cases h
    next w1 r2 e1 =>
      have l2 := excStep_some_len e1
      split at h
      · cases h
      next w2 r3 e2 =>
        have l3 := excStep_some_len e2
        split at h
        · cases h
        next w3 r4 e3 =>
          have l4 := excStep_some_len e3
          split at h
          · cases h
          next w4 r5 e4 =>
            have l5 := excStep_some_len e4
            split at h
            · cases h
            next w5 r6 e5 =>
              have l6 := excStep_some_len e5
              split at h
              · cases h
              next w6 rest e6 =>
                have l7 := excStep_some_len e6
                cases h
                omega

theorem rewriteExcGo_fuel : ∀ n m (s : List Char),
    s.length ≤ n → s.length ≤ m → rewriteExcGo n s = rewriteExcGo m s := by
  intro n
  induction n with
  | zero =>
    intro m s hn _
    have : s = [] := List.length_eq_zero.mp (Nat.le_zero.mp hn)
    subst this
    cases m <;> rfl
  | succ n ih =>
    intro m s hn hm
    cases m with
    | zero =>
      have : s = [] := List.length_eq_zero.mp (Nat.le_zero.mp hm)
      subst this; cases n <;> rfl
    | succ m =>
      cases s with
      | nil => rfl
      | cons c t =>
        simp only [rewriteExcGo]
        cases h : tryMatchExc (c :: t) with
        | none =>
          have ht : t.length ≤ n := by simp at hn; omega
          have ht' : t.length ≤ m := by simp at hm; omega
          simp [ih m t ht ht']
        | some p =>
          obtain ⟨g, rest⟩ := p
          have hr := tryMatchExc_some_len h
          have hb1 : rest.length ≤ n := by simp at hn hr; omega
          have hb2 : rest.length ≤ m := by simp at hm hr; omega
          simp [ih m rest hb1 hb2]

theorem rewriteSprintf_match {s g rest : List Char}
    (h : tryMatchExc s = some (g, rest)) :
    rewriteSprintf s = g ++ replExc ++ rewriteSprintf rest := by
  cases s with
  | nil => rw [tryMatchExc_nil] at h; cases h
  | cons c t =>
    have hr := tryMatchExc_some_len h
    show rewriteExcGo (c :: t).length (c :: t) = _
    simp only [List.length_cons, rewriteExcGo, h]
    have heq : rewriteExcGo t.length rest = rewriteExcGo rest.length rest := by
      apply rewriteExcGo_fuel
      · simp at hr; omega
      · exact Nat.le_refl _
    simp only [heq]
    rfl

theorem noMatchExc_go_id : ∀ (n : Nat) (s : List Char),
    noMatchExc s = true → rewriteExcGo n s = s := by
  intro n
  induction n with
  | zero => intro s _; rfl
  | succ n ih =>
    intro s hs
    cases s with
    | nil => rfl
    | cons c t =>
      simp only [noMatchExc, Bool.and_eq_true, Option.isNone_iff_eq_none] at hs
      simp only [rewriteExcGo, hs.1]
      simp [ih t hs.2]

theorem noMatchExc_id {s : List Char} (h : noMatchExc s = true) :
    rewriteSprintf s = s := noMatchExc_go_id _ s h

theorem ws_ne_btick {c : Char} (h : isWs c = true) : ¬(c = btick) := by
  intro he
  subst he
  exact absurd h (by decide)

theorem not_mem_append {c : Char} {a b : List Char} (ha : c ∉ a) (hb : c ∉ b) :
    c ∉ a ++ b := by
  intro h
  rcases List.mem_append.mp h with h | h
  · exact ha h
  · exact hb h

theorem not_mem_ws {w : List Char} (hw : ∀ c ∈ w, isWs c = true) : btick ∉ w :=
  fun h => ws_ne_btick (hw _ h) rfl

theorem btick_not_mem_fragExc {w1 w2 w3 w4 w5 w6 : List Char}
    (a1 : ∀ c ∈ w1, isWs c = true) (a2 : ∀ c ∈ w2, isWs c = true)
    (a3 : ∀ c ∈ w3, isWs c = true) (a4 : ∀ c ∈ w4, isWs c = true)
    (a5 : ∀ c ∈ w5, isWs c = true) (a6 : ∀ c ∈ w6, isWs c = true) :
    btick ∉ fragExc w1 w2 w3 w4 w5 w6 := by
  unfold fragExc
  exact not_mem_append (not_mem_append (not_mem_append (not_mem_append
    (not_mem_append (not_mem_append (not_mem_append (not_mem_append
      (not_mem_append (not_mem_append (not_mem_append (by decide)
        (not_mem_ws a1)) (by decide)) (not_mem_ws a2)) (by decide))
      (not_mem_ws a3)) (by decide)) (not_mem_ws a4)) (by decide))
    (not_mem_ws a5)) (by decide)) (not_mem_ws a6)

theorem exc_call_match (w1 w2 w3 w4 w5 w6 rest : List Char)
    (h1 : w1 ≠ []) (a1 : ∀ c ∈ w1, isWs c = true)
    (h2 : w2 ≠ []) (a2 : ∀ c ∈ w2, isWs c = true)
    (h3 : w3 ≠ []) (a3 : ∀ c ∈ w3, isWs c = true)
    (h4 : w4 ≠ []) (a4 : ∀ c ∈ w4, isWs c = true)
    (h5 : w5 ≠ []) (a5 : ∀ c ∈ w5, isWs c = true)
    (h6 : w6 ≠ []) (a6 : ∀ c ∈ w6, isWs c = true) :
    tryMatchExc (lit1 ++ (w1 ++ (lit2 ++ (w2 ++ (lit3 ++ (w3 ++ (lit4 ++ (w4 ++ (lit5 ++ (w5 ++ (lit6 ++ (w6 ++ ((btick :: tailExc) ++ rest)))))))))))))
      = some (fragExc w1 w2 w3 w4 w5 w6 ++ [btick], rest) := by
  have d1 := dropPre_append lit1 (w1 ++ (lit2 ++ (w2 ++ (lit3 ++ (w3 ++ (lit4 ++ (w4 ++ (lit5 ++ (w5 ++ (lit6 ++ (w6 ++ ((btick :: tailExc) ++ rest))))))))))))
  have e1 := excStep_append lit2 w1 (w2 ++ (lit3 ++ (w3 ++ (lit4 ++ (w4 ++ (lit5 ++ (w5 ++ (lit6 ++ (w6 ++ ((btick :: tailExc) ++ rest)))))))))) h1 a1 (head_nonws_of '%' _ rfl (by decide))
  have e2 := excStep_append lit3 w2 (w3 ++ (lit4 ++ (w4 ++ (lit5 ++ (w5 ++ (lit6 ++ (w6 ++ ((btick :: tailExc) ++ rest)))))))) h2 a2 (head_nonws_of 'F' _ rfl (by decide))
  have e3 := excStep_append lit4 w3 (w4 ++ (lit5 ++ (w5 ++ (lit6 ++ (w6 ++ ((btick :: tailExc) ++ rest)))))) h3 a3 (head_nonws_of 'W' _ rfl (by decide))
  have e4 := excStep_append lit5 w4 (w5 ++ (lit6 ++ (w6 ++ ((btick :: tailExc) ++ rest)))) h4 a4 (head_nonws_of 'G' _ rfl (by decide))
  have e5 := excStep_append lit6 w5 (w6 ++ ((btick :: tailExc) ++ rest)) h5 a5 (head_nonws_of 'O' _ rfl (by decide))
  have e6 := excStep_append (btick :: tailExc) w6 rest h6 a6
    (head_nonws_of btick _ rfl (by decide))
  simp only [tryMatchExc, d1, e1, e2, e3, e4, e5, e6, fragExc]

theorem exc_rewritten_nomatch (w1 w2 w3 w4 w5 w6 rest : List Char)
    (h1 : w1 ≠ []) (a1 : ∀ c ∈ w1, isWs c = true)
    (h2 : w2 ≠ []) (a2 : ∀ c ∈ w2, isWs c = true)
    (h3 : w3 ≠ []) (a3 : ∀ c ∈ w3, isWs c = true)
    (h4 : w4 ≠ []) (a4 : ∀ c ∈ w4, isWs c = true)
    (h5 : w5 ≠ []) (a5 : ∀ c ∈ w5, isWs c = true)
    (h6 : w6 ≠ []) (a6 : ∀ c ∈ w6, isWs c = true) :
    tryMatchExc (lit1 ++ (w1 ++ (lit2 ++ (w2 ++ (lit3 ++ (w3 ++ (lit4 ++ (w4 ++ (lit5 ++ (w5 ++ (lit6 ++ (w6 ++ (btick :: (replExc ++ rest))))))))))))))
      = none := by
  have d1 := dropPre_append lit1 (w1 ++ (lit2 ++ (w2 ++ (lit3 ++ (w3 ++ (lit4 ++ (w4 ++ (lit5 ++ (w5 ++ (lit6 ++ (w6 ++ (btick :: (replExc ++ rest)))))))))))))
  have e1 := excStep_append lit2 w1 (w2 ++ (lit3 ++ (w3 ++ (lit4 ++ (w4 ++ (lit5 ++ (w5 ++ (lit6 ++ (w6 ++ (btick :: (replExc ++ rest))))))))))) h1 a1 (head_nonws_of '%' _ rfl (by decide))
  have e2 := excStep_append lit3 w2 (w3 ++ (lit4 ++ (w4 ++ (lit5 ++ (w5 ++ (lit6 ++ (w6 ++ (btick :: (replExc ++ rest))))))))) h2 a2 (head_nonws_of 'F' _ rfl (by decide))
  have e3 := excStep_append lit4 w3 (w4 ++ (lit5 ++ (w5 ++ (lit6 ++ (w6 ++ (btick :: (replExc ++ rest))))))) h3 a3 (head_nonws_of 'W' _ rfl (by decide))
  have e4 := excStep_append lit5 w4 (w5 ++ (lit6 ++ (w6 ++ (btick :: (replExc ++ rest))))) h4 a4 (head_nonws_of 'G' _ rfl (by decide))
  have e5 := excStep_append lit6 w5 (w6 ++ (btick :: (replExc ++ rest))) h5 a5 (head_nonws_of 'O' _ rfl (by decide))
  have e6 := excStep_append_none (btick :: tailExc) w6 (btick :: (replExc ++ rest))
    h6 a6 (head_nonws_of btick _ rfl (by decide)) rfl
  simp only [tryMatchExc, d1, e1, e2, e3, e4, e5, e6]

/-! ## Lemmas about the Structural Inserter -/

theorem newLine_not_target : isTargetLine newLine = false := by decide

theorem newLine_no_brace : containsSub newLine [bopen] = false := by decide

theorem newLine_has_binding : containsSub newLine bindingStr = true := by decide

theorem stepInsert_nobrace {rest : List (List Char)}
    (h : ∀ l ∈ rest, containsSub l [bopen] = false) : stepInsert rest = rest := by
  induction rest with
  | nil => rfl
  | cons l r ih =>
    have hl : containsSub l [bopen] = false := h l (by simp)
    simp only [stepInsert, hl, Bool.false_eq_true, if_false]
    rw [ih fun x hx => h x (by simp [hx])]

theorem stepInsert_cases (r : List (List Char)) :
    stepInsert r = r ∨
      ∃ u v, r = u ++ v ∧ stepInsert r = u ++ newLine :: v := by
  induction r with
  | nil => exact Or.inl rfl
  | cons l rest ih =>
    by_cases hb : containsSub l [bopen] = true
    · cases rest with
      | nil => exact Or.inl (by simp [stepInsert, hb])
      | cons x t =>
        by_cases hx : containsSub x bindingStr = true
        · exact Or.inl (by simp [stepInsert, hb, hx])
        · refine Or.inr ⟨[l], x :: t, by simp, ?_⟩
          simp [stepInsert, hb, hx]
    · rcases ih with heq | ⟨u, v, hr, hs⟩
      · exact Or.inl (by simp [stepInsert, hb, heq])
      · refine Or.inr ⟨l :: u, v, by simp [hr], ?_⟩
        simp [stepInsert, hb, hs]

theorem countT_insert_newLine (u v : List (List Char)) :
    countT (u ++ newLine :: v) = countT (u ++ v) := by
  simp [countT, List.countP_append, List.countP_cons, newLine_not_target]

theorem stepInsert_len_le (r : List (List Char)) :
    (stepInsert r).length ≤ r.length + 1 := by
  rcases stepInsert_cases r with h | ⟨u, v, hr, hs⟩
  · rw [h]; omega
  · rw [hs, hr]; simp; omega

theorem stepInsert_countT (r : List (List Char)) :
    countT (stepInsert r) = countT r := by
  rcases stepInsert_cases r with h | ⟨u, v, hr, hs⟩
  · rw [h]
  · rw [hs, hr, countT_insert_newLine]

theorem stepInsert_measure (r : List (List Char)) :
    measureF (stepInsert r) ≤ measureF r + 1 := by
  have h1 := stepInsert_len_le r
  have h2 := stepInsert_countT r
  simp only [measureF]
  omega

theorem countT_cons (l : List Char) (rest : List (List Char)) :
    countT (l :: rest) =
      countT rest + (if isTargetLine l = true then 1 else 0) := by
  simp [countT, List.countP_cons]

theorem measureF_cons_target {l : List Char} (rest : List (List Char))
    (h : isTargetLine l = true) : measureF (l :: rest) = measureF rest + 2 := by
  simp only [measureF, countT_cons, h, if_true, List.length_cons]
  omega

theorem measureF_cons_nontarget {l : List Char} (rest : List (List Char))
    (h : isTargetLine l = false) : measureF (l :: rest) = measureF rest + 1 := by
  simp only [measureF, countT_cons, h, Bool.false_eq_true, if_false, List.length_cons]
  omega

theorem len_le_measureF (ls : List (List Char)) : ls.length ≤ measureF ls :=
  Nat.le_add_right _ _

theorem measureF_zero_nil {ls : List (List Char)} (h : measureF ls ≤ 0) : ls = [] :=
  List.length_eq_zero.mp (Nat.le_zero.mp (Nat.le_trans (len_le_measureF ls) h))

theorem fixFuncsGo_fuel : ∀ n m (ls : List (List Char)),
    measureF ls ≤ n → measureF ls ≤ m → fixFuncsGo n ls = fixFuncsGo m ls := by
  intro n
  induction n with
  | zero =>
    intro m ls hn _
    obtain rfl := measureF_zero_nil hn
    cases m <;> rfl
  | succ n ih =>
    intro m ls hn hm
    cases m with
    | zero =>
      obtain rfl := measureF_zero_nil hm
      cases n <;> rfl
    | succ m =>
      cases ls with
      | nil => rfl
      | cons l rest =>
        by_cases ht : isTargetLine l = true
        · have hc := measureF_cons_target rest ht
          simp only [fixFuncsGo, ht, if_true]
          have hs := stepInsert_measure rest
          have b1 : measureF (stepInsert rest) ≤ n := by omega
          have b2 : measureF (stepInsert rest) ≤ m := by omega
          rw [ih m (stepInsert rest) b1 b2]
        · rw [Bool.not_eq_true] at ht
          have hc := measureF_cons_nontarget rest ht
          simp only [fixFuncsGo, ht, Bool.false_eq_true, if_false]
          have b1 : measureF rest ≤ n := by omega
          have b2 : measureF rest ≤ m := by omega
          rw [ih m rest b1 b2]

theorem fixFuncsGo_len_le : ∀ n (ls : List (List Char)),
    (fixFuncsGo n ls).length ≤ ls.length + countT ls := by
  intro n
  induction n with
  | zero => intro ls; simp [fixFuncsGo]
  | succ n ih =>
    intro ls
    cases ls with
    | nil => simp [fixFuncsGo]
    | cons l rest =>
      by_cases ht : isTargetLine l = true
      · simp only [fixFuncsGo, ht, if_true, List.length_cons]
        have h1 := ih (stepInsert rest)
        have h2 := stepInsert_len_le rest
        have h3 := stepInsert_countT rest
        rw [countT_cons]
        simp only [ht, if_true, List.length_cons]
        omega
      · simp only [fixFuncsGo, ht, Bool.false_eq_true, if_false, List.length_cons]
        have h1 := ih rest
        rw [countT_cons]
        rw [Bool.not_eq_true] at ht
        simp only [ht, Bool.false_eq_true, if_false, List.length_cons]
        omega

theorem fixFuncsGo_no_target : ∀ n (ls : List (List Char)),
    countT ls = 0 → fixFuncsGo n ls = ls := by
  intro n
  induction n with
  | zero => intro ls _; rfl
  | succ n ih =>
    intro ls h
    cases ls with
    | nil => rfl
    | cons l rest =>
      rw [countT_cons] at h
      have hl : isTargetLine l = false := by
        by_contra hc
        simp only [Bool.not_eq_false] at hc
        rw [hc, if_pos rfl] at h
        omega
      rw [hl, if_neg (by simp)] at h
      have hr : countT rest = 0 := by omega
      simp only [fixFuncsGo, hl, Bool.false_eq_true, if_false]
      rw [ih rest hr]

theorem fixFuncsGo_nobrace : ∀ n (ls : List (List Char)),
    (∀ l ∈ ls, containsSub l [bopen] = false) → fixFuncsGo n ls = ls := by
  intro n
  induction n with
  | zero => intro ls _; rfl
  | succ n ih =>
    intro ls h
    cases ls with
    | nil => rfl
    | cons l rest =>
      have hrest : ∀ x ∈ rest, containsSub x [bopen] = false :=
        fun x hx => h x (by simp [hx])
      by_cases ht : isTargetLine l = true
      · simp only [fixFuncsGo, ht, if_true]
        rw [stepInsert_nobrace hrest, ih rest hrest]
      · simp only [fixFuncsGo, ht, Bool.false_eq_true, if_false]
        rw [ih rest hrest]

theorem fixFuncsGo_sublist : ∀ n (ls : List (List Char)),
    List.Sublist ls (fixFuncsGo n ls) := by
  intro n
  induction n with
  | zero => intro ls; exact List.Sublist.refl ls
  | succ n ih =>
    intro ls
    cases ls with
    | nil => exact List.Sublist.refl []
    | cons l rest =>
      by_cases ht : isTargetLine l = true
      · simp only [fixFuncsGo, ht, if_true]
        refine List.Sublist.cons₂ l ?_
        have h1 : List.Sublist rest (stepInsert rest) := by
          rcases stepInsert_cases rest with h | ⟨u, v, hr, hs⟩
          · rw [h]
          · rw [hs, hr]
            exact (List.Sublist.cons newLine (List.Sublist.refl v)).append_left u
        exact h1.trans (ih (stepInsert rest))
      · simp only [fixFuncsGo, ht, Bool.false_eq_true, if_false]
        exact List.Sublist.cons₂ l (ih rest)

theorem stepInsert_idem (r : List (List Char)) :
    stepInsert (stepInsert r) = stepInsert r := by
  induction r with
  | nil => rfl
  | cons l rest ih =>
    by_cases hb : containsSub l [bopen] = true
    · cases rest with
      | nil => simp [stepInsert, hb]
      | cons x t =>
        by_cases hx : containsSub x bindingStr = true
        · simp [stepInsert, hb, hx]
        · simp [stepInsert, hb, hx, newLine_has_binding]
    · simp only [stepInsert, hb, Bool.false_eq_true, if_false]
      rw [ih]

theorem stepInsert_fix_insert : ∀ (u v : List (List Char)),
    stepInsert (u ++ v) = u ++ v →
    stepInsert (u ++ newLine :: v) = u ++ newLine :: v := by
  intro u
  induction u with
  | nil =>
    intro v h
    simp only [List.nil_append] at h ⊢
    simp only [stepInsert, newLine_no_brace, Bool.false_eq_true, if_false]
    rw [h]
  | cons l u' ih =>
    intro v h
    simp only [List.cons_append] at h ⊢
    by_cases hb : containsSub l [bopen] = true
    · cases hu : u' with
      | nil =>
        subst hu
        cases hv : v with
        | nil => simp [stepInsert, hb, newLine_has_binding]
        | cons x t =>
          subst hv
          simp only [List.nil_append] at h ⊢
          by_cases hx : containsSub x bindingStr = true
          · simp [stepInsert, hb, newLine_has_binding]
          · simp only [stepInsert, hb, if_true, hx, Bool.false_eq_true, if_false] at h
            have := congrArg List.length h
            simp at this
      | cons y u'' =>
        subst hu
        simp only [List.cons_append] at h ⊢
        by_cases hy : containsSub y bindingStr = true
        · simp [stepInsert, hb, hy]
        · simp only [stepInsert, hb, if_true, hy, Bool.false_eq_true, if_false] at h
          have := congrArg List.length h
          simp at this
    · simp only [stepInsert, hb, Bool.false_eq_true, if_false] at h ⊢
      have h' : stepInsert (u' ++ v) = u' ++ v := by
        exact (List.cons.injEq _ _ _ _).mp h |>.2
      rw [ih v h']

theorem nlext_trans {a b c : List (List Char)} (h1 : NLExt a b) (h2 : NLExt b c) :
    NLExt a c := by
  induction h2 with
  | refl => exact h1
  | ins u v _ ih => exact NLExt.ins a u v ih

theorem nlext_cons {r r' : List (List Char)} (l : List Char) (h : NLExt r r') :
    NLExt (l :: r) (l :: r') := by
  induction h with
  | refl => exact NLExt.refl _
  | ins u v _ ih =>
    have heq : l :: (u ++ newLine :: v) = (l :: u) ++ newLine :: v := by simp
    rw [heq]
    exact NLExt.ins _ (l :: u) v ih

theorem nlext_stepInsert (r : List (List Char)) : NLExt r (stepInsert r) := by
  rcases stepInsert_cases r with h | ⟨u, v, hr, hs⟩
  · rw [h]; exact NLExt.refl r
  · rw [hs]
    refine NLExt.ins r u v ?_
    rw [← hr]
    exact NLExt.refl r

theorem nlext_go : ∀ n (ls : List (List Char)), NLExt ls (fixFuncsGo n ls) := by
  intro n
  induction n with
  | zero => intro ls; exact NLExt.refl ls
  | succ n ih =>
    intro ls
    cases ls with
    | nil => exact NLExt.refl []
    | cons l rest =>
      by_cases ht : isTargetLine l = true
      · simp only [fixFuncsGo, ht, if_true]
        exact nlext_cons l
          (nlext_trans (nlext_stepInsert rest) (ih (stepInsert rest)))
      · simp only [fixFuncsGo, ht, Bool.false_eq_true, if_false]
        exact nlext_cons l (ih rest)

theorem nlext_fix {r r' : List (List Char)} (h : stepInsert r = r)
    (hx : NLExt r r') : stepInsert r' = r' := by
  induction hx with
  | refl => exact h
  | ins u v _ ih => exact stepInsert_fix_insert u v ih

theorem settled_nil : Settled [] := by
  intro i l rest hd
  rw [List.drop_nil] at hd
  cases hd

theorem settled_cons {x : List Char} {ls : List (List Char)}
    (hx : isTargetLine x = true → stepInsert ls = ls) (h : Settled ls) :
    Settled (x :: ls) := by
  intro i l rest hd ht
  cases i with
  | zero =>
    rw [List.drop_zero] at hd
    cases hd
    exact hx ht
  | succ i =>
    rw [List.drop_succ_cons] at hd
    exact h i l rest hd ht

theorem settled_of_cons {x : List Char} {ls : List (List Char)}
    (h : Settled (x :: ls)) : Settled ls := by
  intro i l rest hd ht
  exact h (i + 1) l rest (by rw [List.drop_succ_cons]; exact hd) ht

theorem settled_go : ∀ n (ls : List (List Char)),
    measureF ls ≤ n → Settled (fixFuncsGo n ls) := by
  intro n
  induction n with
  | zero =>
    intro ls hn
    obtain rfl := measureF_zero_nil hn
    exact settled_nil
  | succ n ih =>
    intro ls hn
    cases ls with
    | nil => exact settled_nil
    | cons l rest =>
      by_cases ht : isTargetLine l = true
      · have hc := measureF_cons_target rest ht
        simp only [fixFuncsGo, ht, if_true]
        have hs := stepInsert_measure rest
        have b1 : measureF (stepInsert rest) ≤ n := by omega
        refine settled_cons (fun _ => ?_) (ih (stepInsert rest) b1)
        exact nlext_fix (stepInsert_idem rest) (nlext_go n (stepInsert rest))
      · rw [Bool.not_eq_true] at ht
        have hc := measureF_cons_nontarget rest ht
        simp only [fixFuncsGo, ht, Bool.false_eq_true, if_false]
        have b1 : measureF rest ≤ n := by omega
        refine settled_cons (fun htrue => ?_) (ih rest b1)
        rw [ht] at htrue
        cases htrue

theorem settled_id : ∀ n (ls : List (List Char)),
    Settled ls → fixFuncsGo n ls = ls := by
  intro n
  induction n with
  | zero => intro ls _; rfl
  | succ n ih =>
    intro ls h
    cases ls with
    | nil => rfl
    | cons l rest =>
      by_cases ht : isTargetLine l = true
      · have hstep : stepInsert rest = rest := h 0 l rest (by rw [List.drop_zero]) ht
        simp only [fixFuncsGo, ht, if_true, hstep]
        rw [ih rest (settled_of_cons h)]
      · simp only [fixFuncsGo, ht, Bool.false_eq_true, if_false]
        rw [ih rest (settled_of_cons h)]

theorem stepInsert_braceless_append : ∀ (pre r : List (List Char)),
    (∀ l ∈ pre, containsSub l [bopen] = false) →
    stepInsert (pre ++ r) = pre ++ stepInsert r := by
  intro pre
  induction pre with
  | nil => intro r _; rfl
  | cons p pre' ih =>
    intro r h
    have hp : containsSub p [bopen] = false := h p (by simp)
    simp only [List.cons_append, stepInsert, hp, Bool.false_eq_true, if_false]
    exact congrArg (p :: ·) (ih r fun x hx => h x (by simp [hx]))

theorem fixFuncsGo_nontarget_append : ∀ (A : List (List Char)) n
    (B : List (List Char)),
    (∀ l ∈ A, isTargetLine l = false) → measureF (A ++ B) ≤ n →
    fixFuncsGo n (A ++ B) = A ++ fixFuncsGo (n - A.length) B := by
  intro A
  induction A with
  | nil => intro n B _ _; simp
  | cons a A' ih =>
    intro n B hA hn
    have ha : isTargetLine a = false := hA a (by simp)
    have hc := measureF_cons_nontarget (A' ++ B) ha
    rw [List.cons_append] at hn
    cases n with
    | zero =>
      exfalso
      rw [hc] at hn
      omega
    | succ n =>
      have harith : n + 1 - (a :: A').length = n - A'.length := by
        simp only [List.length_cons]
        omega
      have hb : measureF (A' ++ B) ≤ n := by omega
      have hrec := ih n B (fun x hx => hA x (by simp [hx])) hb
      rw [harith, List.cons_append, List.cons_append]
      simp only [fixFuncsGo, ha, Bool.false_eq_true, if_false]
      rw [hrec]

/-! ## Claims about the exception rewriter and the Structural Inserter -/

/-- C8: a multi-line irregular call `fmt.Sprintf(` backtick `L` backtick
`, selectClause, whereClause)` whose literal ends with the exception
pattern's anchored fragment is rewritten by the exception pattern to insert
`parquetSource` between `selectClause` and `whereClause`; the general
pattern does not match that call (neither before nor after the exception
rewrite, since the closing backtick is not followed by `, whereClause)`),
and the exception pattern does not re-match the rewritten call — so the two
patterns, composed in either order, insert `parquetSource` exactly once. -/
theorem c8_exception_call_rewritten_once (pre w1 w2 w3 w4 w5 w6 rest : List Char)
    (hpre : btick ∉ pre)
    (h1 : w1 ≠ []) (a1 : ∀ c ∈ w1, isWs c = true)
    (h2 : w2 ≠ []) (a2 : ∀ c ∈ w2, isWs c = true)
    (h3 : w3 ≠ []) (a3 : ∀ c ∈ w3, isWs c = true)
    (h4 : w4 ≠ []) (a4 : ∀ c ∈ w4, isWs c = true)
    (h5 : w5 ≠ []) (a5 : ∀ c ∈ w5, isWs c = true)
    (h6 : w6 ≠ []) (a6 : ∀ c ∈ w6, isWs c = true) :
    rewriteSprintf (excCallText w1 w2 w3 w4 w5 w6 rest) =
      (fragExc w1 w2 w3 w4 w5 w6 ++ [btick]) ++ (replExc ++ rewriteSprintf rest) ∧
    tryMatchGen (sprintfOpen ++ ((pre ++ fragExc w1 w2 w3 w4 w5 w6) ++
      (btick :: (tailExc ++ rest)))) = none ∧
    tryMatchExc (fragExc w1 w2 w3 w4 w5 w6 ++ (btick :: (replExc ++ rest))) = none ∧
    tryMatchGen (sprintfOpen ++ ((pre ++ fragExc w1 w2 w3 w4 w5 w6) ++
      (btick :: (replExc ++ rest)))) = none := by
  have hbt : btick ∉ pre ++ fragExc w1 w2 w3 w4 w5 w6 :=
    not_mem_append hpre (btick_not_mem_fragExc a1 a2 a3 a4 a5 a6)
  refine ⟨?_, ?_, ?_, ?_⟩
  · have hconv : excCallText w1 w2 w3 w4 w5 w6 rest =
        (lit1 ++ (w1 ++ (lit2 ++ (w2 ++ (lit3 ++ (w3 ++ (lit4 ++ (w4 ++ (lit5 ++
          (w5 ++ (lit6 ++ (w6 ++ ((btick :: tailExc) ++ rest))))))))))))) := by
      simp [excCallText, fragExc, List.append_assoc]
    rw [hconv, rewriteSprintf_match (exc_call_match w1 w2 w3 w4 w5 w6 rest
      h1 a1 h2 a2 h3 a3 h4 a4 h5 a5 h6 a6)]
    simp [List.append_assoc]
  · exact gen_tail_nomatch _ rest tailExc hbt (fun _ => rfl)
  · have hconv : fragExc w1 w2 w3 w4 w5 w6 ++ (btick :: (replExc ++ rest)) =
        (lit1 ++ (w1 ++ (lit2 ++ (w2 ++ (lit3 ++ (w3 ++ (lit4 ++ (w4 ++ (lit5 ++
          (w5 ++ (lit6 ++ (w6 ++ (btick :: (replExc ++ rest)))))))))))))) := by
      simp [fragExc, List.append_assoc]
    rw [hconv]
    exact exc_rewritten_nomatch w1 w2 w3 w4 w5 w6 rest
      h1 a1 h2 a2 h3 a3 h4 a4 h5 a5 h6 a6
  · exact gen_tail_nomatch _ rest replExc hbt (fun _ => rfl)

/-- Witness for C8 with single-space whitespace runs and an empty tail. -/
theorem c8_witness :
    (btick ∉ ([] : List Char)) ∧ ([' '] : List Char) ≠ [] ∧
    (∀ c ∈ ([' '] : List Char), isWs c = true) ∧
    rewriteSprintf (excCallText [' '] [' '] [' '] [' '] [' '] [' '] []) =
      (fragExc [' '] [' '] [' '] [' '] [' '] [' '] ++ [btick]) ++
        (replExc ++ rewriteSprintf []) ∧
    tryMatchGen (sprintfOpen ++ (([] ++ fragExc [' '] [' '] [' '] [' '] [' '] [' ']) ++
      (btick :: (tailExc ++ [])))) = none :=
  ⟨by decide, by decide, by decide,
    (c8_exception_call_rewritten_once [] [' '] [' '] [' '] [' '] [' '] [' '] []
      (by decide) (by decide) (by decide) (by decide) (by decide) (by decide)
      (by decide) (by decide) (by decide) (by decide) (by decide) (by decide)
      (by decide)).1,
    (c8_exception_call_rewritten_once [] [' '] [' '] [' '] [' '] [' '] [' '] []
      (by decide) (by decide) (by decide) (by decide) (by decide) (by decide)
      (by decide) (by decide) (by decide) (by decide) (by decide) (by decide)
      (by decide)).2.1⟩

/-- C2 as stated is false: the brace scan starts at the line AFTER the
matched signature line (`j = i + 1`), so an opening brace on the matched
line itself is never seen.  In `cex2buf` the target line carries its own
brace, no later line contains one, and the binding is absent — yet the
inserter changes nothing, where the claim demands an insertion as the new
first line of the body. -/
theorem c2_counterexample :
    fixFuncs cex2buf = cex2buf ∧ countT cex2buf = 1 ∧
    (∀ l ∈ cex2buf, containsSub l bindingStr = false) := by decide

/-- C2 (amended): the scan for the opening brace starts at the line after
the matched signature line.  When every line of `pre` (the lines between
the signature and the brace) lacks a brace, the first brace line at or
after the next line is found, and, the binding being absent on the line one
past it, `\tparquetSource := r.getParquetSource()` is inserted there — the
new first line of the function body.  A brace on the signature line itself
is not considered (per the counterexample). -/
theorem c2_insert_after_next_line_brace (sig braceL next : List Char)
    (pre post : List (List Char))
    (hsig : isTargetLine sig = true)
    (hpre : ∀ l ∈ pre, containsSub l [bopen] = false ∧ isTargetLine l = false)
    (hbrace : containsSub braceL [bopen] = true)
    (hbt : isTargetLine braceL = false)
    (hnext : containsSub next bindingStr = false)
    (hnt : isTargetLine next = false) :
    fixFuncs (sig :: (pre ++ braceL :: next :: post)) =
      sig :: (pre ++ braceL :: newLine :: next :: fixFuncs post) := by
  have hpreB : ∀ l ∈ pre, containsSub l [bopen] = false := fun l hl => (hpre l hl).1
  have hpreT : ∀ l ∈ pre, isTargetLine l = false := fun l hl => (hpre l hl).2
  have hcntpre : List.countP (fun l => isTargetLine l) pre = 0 := by
    rw [List.countP_eq_zero]
    intro a ha
    simp [hpreT a ha]
  have hstep : stepInsert (pre ++ braceL :: next :: post) =
      pre ++ braceL :: newLine :: next :: post := by
    rw [stepInsert_braceless_append pre _ hpreB]
    simp only [stepInsert, hbrace, if_true, hnext, Bool.false_eq_true, if_false]
  have hNval : measureF (sig :: (pre ++ braceL :: next :: post)) =
      pre.length + post.length + countT post + 4 := by
    simp only [measureF, countT, List.countP_cons, List.countP_append,
      List.length_cons, List.length_append, hsig, hbt, hnt, hcntpre]
    simp
    omega
  have hkey : measureF (sig :: (pre ++ braceL :: next :: post)) =
      (pre.length + post.length + countT post + 3) + 1 := by omega
  show fixFuncsGo (measureF (sig :: (pre ++ braceL :: next :: post)))
      (sig :: (pre ++ braceL :: next :: post)) = _
  rw [hkey]
  simp only [fixFuncsGo, hsig, if_true]
  rw [hstep]
  have hAssoc : pre ++ braceL :: newLine :: next :: post =
      (pre ++ [braceL, newLine, next]) ++ post := by simp
  have hA : ∀ l ∈ pre ++ [braceL, newLine, next], isTargetLine l = false := by
    intro l hl
    rcases List.mem_append.mp hl with h | h
    · exact hpreT l h
    · simp only [List.mem_cons, List.mem_singleton] at h
      rcases h with rfl | rfl | rfl | h
      · exact hbt
      · exact newLine_not_target
      · exact hnt
      · cases h
  have hμval : measureF ((pre ++ [braceL, newLine, next]) ++ post) =
      pre.length + post.length + countT post + 3 := by
    simp only [measureF, countT, List.countP_cons, List.countP_append,
      List.length_cons, List.length_append, hbt, hnt, newLine_not_target, hcntpre]
    simp
    omega
  rw [hAssoc, fixFuncsGo_nontarget_append (pre ++ [braceL, newLine, next])
    (pre.length + post.length + countT post + 3) post hA (by omega)]
  have hsub : pre.length + post.length + countT post + 3 -
      (pre ++ [braceL, newLine, next]).length = measureF post := by
    simp only [List.length_append, List.length_cons, List.length_nil, measureF]
    omega
  rw [hsub]
  show sig :: ((pre ++ [braceL, newLine, next]) ++ fixFuncs post) = _
  simp [List.append_assoc]

/-- Witness for the amended C2: a two-line signature whose brace is on the
line after the matched one. -/
theorem c2_witness :
    isTargetLine ("func (r *eventRepository) GetProjects(\n".toList) = true ∧
    containsSub (") \x7b\n".toList) [bopen] = true ∧
    fixFuncs [("func (r *eventRepository) GetProjects(\n".toList),
              (") \x7b\n".toList), ("\treturn x\n".toList)] =
      [("func (r *eventRepository) GetProjects(\n".toList),
       (") \x7b\n".toList), newLine, ("\treturn x\n".toList)] :=
  ⟨by decide, by decide, by
    have h := c2_insert_after_next_line_brace
      ("func (r *eventRepository) GetProjects(\n".toList)
      (") \x7b\n".toList) ("\treturn x\n".toList) [] []
      (by decide) (by decide) (by decide) (by decide) (by decide) (by decide)
    simpa using h⟩

/-- C3: the Structural Inserter is idempotent — applying it twice to any
buffer yields the same line sequence as applying it once, because a second
run finds the binding line already in place directly after each matched
function's brace line and skips. -/
theorem c3_inserter_idempotent (ls : List (List Char)) :
    fixFuncs (fixFuncs ls) = fixFuncs ls :=
  settled_id _ _ (settled_go _ _ (Nat.le_refl _))

/-- C6: targeting precision.  A single run inserts at most one binding line
per matched target line (the output length is bounded by the input length
plus the number of lines containing a full target marker), and a buffer
with no line containing a full marker — even if target names occur alone in
comments or string literals — is returned unchanged, with zero
insertions. -/
theorem c6_targeting_precision (ls : List (List Char)) :
    (fixFuncs ls).length ≤ ls.length + countT ls ∧
    (countT ls = 0 → fixFuncs ls = ls) :=
  ⟨fixFuncsGo_len_le _ _, fun h => fixFuncsGo_no_target _ _ h⟩

/-- Witness for C6 on a buffer whose only function is not a target but whose
body mentions target names in a comment and a string literal. -/
theorem c6_witness :
    countT c6buf = 0 ∧ fixFuncs c6buf = c6buf ∧
    (fixFuncs c6buf).length ≤ c6buf.length + countT c6buf :=
  ⟨by decide, (c6_targeting_precision c6buf).2 (by decide),
    (c6_targeting_precision c6buf).1⟩

/-- C9: no component fails on a non-matching input.  If no line after a
match contains an opening brace, the inner scan inserts nothing; a whole
buffer without braces passes through the Structural Inserter unchanged; and
a text in which the exception CallPattern matches zero occurrences is
returned byte-for-byte by the Call-Site Rewriter. -/
theorem c9_silent_skip_no_error (rest ls : List (List Char)) (text : List Char) :
    ((∀ l ∈ rest, containsSub l [bopen] = false) → stepInsert rest = rest) ∧
    ((∀ l ∈ ls, containsSub l [bopen] = false) → fixFuncs ls = ls) ∧
    (noMatchExc text = true → rewriteSprintf text = text) :=
  ⟨fun h => stepInsert_nobrace h, fun h => fixFuncsGo_nobrace _ ls h,
   fun h => noMatchExc_id h⟩

/-- Witness for C9: a buffer whose matched target signature is never
followed by a brace line, and a text the exception pattern never matches. -/
theorem c9_witness :
    isTargetLine ("func (r *eventRepository) GetProjects\n".toList) = true ∧
    (∀ l ∈ c9buf, containsSub l [bopen] = false) ∧
    fixFuncs c9buf = c9buf ∧
    stepInsert [("\treturn nil\n".toList)] = [("\treturn nil\n".toList)] ∧
    noMatchExc ("package repository".toList) = true ∧
    rewriteSprintf ("package repository".toList) = ("package repository".toList) :=
  ⟨by decide, by decide,
    (c9_silent_skip_no_error [("\treturn nil\n".toList)] c9buf
      ("package repository".toList)).2.1 (by decide),
    (c9_silent_skip_no_error [("\treturn nil\n".toList)] c9buf
      ("package repository".toList)).1 (by decide),
    by decide,
    (c9_silent_skip_no_error [("\treturn nil\n".toList)] c9buf
      ("package repository".toList)).2.2 (by decide)⟩

/-- C10: frame property of the Structural Inserter — every input line
appears in the output byte-for-byte, in its original relative order (the
input is a sublist of the output), and the output is at least as long. -/
theorem c10_output_supersequence (ls : List (List Char)) :
    List.Sublist ls (fixFuncs ls) ∧ ls.length ≤ (fixFuncs ls).length :=
  ⟨fixFuncsGo_sublist _ _, List.Sublist.length_le (fixFuncsGo_sublist _ _)⟩
